import Mathlib

/-!
Verification development for the PE-file model of dfrus (`peclasses.py` and the
machine-code assembler exercised by `tests/test_machinecode.py`).

Bytes are modelled as `List Nat` whose members are below 256; multi-byte
integers are little-endian, as produced by `struct.pack`, `array.tofile` and
`int.to_bytes(..., 'little')` on the Windows target (where the format codes
`L`/`H` denote 4- and 2-byte unsigned integers).
-/

/-- Little-endian value of a byte list, as `int.from_bytes(bs, 'little')`. -/
def leValue : List Nat → Nat
  | [] => 0
  | b :: bs => b + 256 * leValue bs

/-- The `w`-byte little-endian encoding of `v`, as `struct.pack` writes a `w`-byte
unsigned field (the value is reduced modulo `256 ^ w`). -/
def leBytes : Nat → Nat → List Nat
  | 0, _ => []
  | w + 1, v => v % 256 :: leBytes w (v / 256)

/-- Python `struct.unpack` over a list of unsigned little-endian field widths:
split the buffer into fields of the given widths and decode each. -/
def structUnpack : List Nat → List Nat → List Nat
  | [], _ => []
  | w :: ws, bs => leValue (bs.take w) :: structUnpack ws (bs.drop w)

/-- Python `struct.pack` over the same field widths. -/
def structPack : List Nat → List Nat → List Nat
  | w :: ws, v :: vs => leBytes w v ++ structPack ws vs
  | _, _ => []

/-!
## Header model (`peclasses.py`)

`ImageOptionalHeader` reads 224 raw bytes; the 30 numeric fields occupy the
first `0x60` bytes (format `'H B B 9L 6H 4L 2H 6L'`) and the embedded
`DataDirectory` the remaining 128 bytes.  `ImageOptionalHeader.__bytes__`
packs only the 30 numeric fields; `DataDirectory.__bytes__` re-encodes its 15
named entries and appends `bytes(8)` — eight zero bytes — in place of the
16th raw entry (which `zip` with the 15 field names dropped at parse time).
-/

/-- Field widths of the 30 numeric optional-header fields
(`'H B B 9L 6H 4L 2H 6L'`, natural alignment inserts no padding here). -/
def optionalHeaderWidths : List Nat :=
  [2, 1, 1, 4, 4, 4, 4, 4, 4, 4, 4, 4, 2, 2, 2, 2, 2, 2, 4, 4, 4, 4, 2, 2, 4, 4, 4, 4, 4, 4]

/-- Split a byte list into consecutive `(u32, u32)` pairs
(`DataDirectoryEntry.iter_unpack`, format `'2L'`). -/
def chunkPairs : List Nat → List (Nat × Nat)
  | b0 :: b1 :: b2 :: b3 :: b4 :: b5 :: b6 :: b7 :: rest =>
    (leValue [b0, b1, b2, b3], leValue [b4, b5, b6, b7]) :: chunkPairs rest
  | _ => []

/-- Model of `DataDirectoryEntry.__bytes__`: pack `(virtual_address, size)` as two u32. -/
def DataDirectoryEntry.toBytes (e : Nat × Nat) : List Nat :=
  leBytes 4 e.1 ++ leBytes 4 e.2

/-- Model of `DataDirectoryEntry.unpack`: exactly eight bytes decode to the two fields. -/
def DataDirectoryEntry.unpack (bs : List Nat) : Option (Nat × Nat) :=
  if bs.length = 8 then some (leValue (bs.take 4), leValue ((bs.drop 4).take 4)) else none

/-- Model of `DataDirectory.__init__`: zip the 15 field names with the decoded entries of
the 128-byte region — the zip truncates after 15 entries, dropping the 16th. -/
def DataDirectory.decode (raw : List Nat) : List (Nat × Nat) :=
  (chunkPairs raw).take 15

/-- Model of `DataDirectory.__bytes__`: the 15 named entries re-encoded, followed by
`bytes(DataDirectoryEntry.sizeof)` = eight zero bytes. -/
def DataDirectory.toBytes (dd : List (Nat × Nat)) : List Nat :=
  (dd.flatMap DataDirectoryEntry.toBytes) ++ List.replicate 8 0

/-- Parsed `ImageOptionalHeader`: the 30 numeric field values, the embedded
data directory, and the raw snapshot. -/
structure ImageOptionalHeader where
  fields : List Nat
  data_directory : List (Nat × Nat)
  raw : List Nat
deriving DecidableEq

/-- Model of `ImageOptionalHeader.__init__` on `sizeof = 224` raw bytes: unpack the
numeric fields from the first `0x60` bytes and the data directory from the
rest (`struct.unpack` demands exactly 224 bytes). -/
def ImageOptionalHeader.decode (raw : List Nat) : Option ImageOptionalHeader :=
  if raw.length = 224 then
    some ⟨structUnpack optionalHeaderWidths (raw.take 96),
      DataDirectory.decode (raw.drop 96), raw⟩
  else none

/-- Model of `ImageOptionalHeader.__bytes__`: `self._struct.pack(*self)` — only the 30
numeric fields are written. -/
def ImageOptionalHeader.toBytes (h : ImageOptionalHeader) : List Nat :=
  structPack optionalHeaderWidths h.fields

/-- Parsed `ImageDosHeader`: raw snapshot, signature, `e_lfanew`. -/
structure ImageDosHeader where
  raw : List Nat
  signature : List Nat
  e_lfanew : Nat
deriving DecidableEq

/-- Model of `ImageDosHeader.__init__`: keep the 64 raw bytes, check the `MZ`
signature, decode `e_lfanew` from offset `0x3C`. -/
def ImageDosHeader.decode (bs : List Nat) : Option ImageDosHeader :=
  let raw := bs.take 64
  if raw.take 2 = [0x4D, 0x5A] then
    some ⟨raw, raw.take 2, leValue (raw.drop 0x3C)⟩
  else none

/-!
## Section records and the section table

`Section` (format `'8s4L12xL'`, 40 bytes on the Windows target) and
`SectionTable` from `peclasses.py`.  `Structure.from_bytes` calls
`cls(cls._struct.unpack(buffer))`, passing the whole unpacked tuple as a
single positional argument, so `Structure.__init__`'s arity assertion
`len(args) == len(self._field_names)` compares 1 with 6; `Structure.read`
instead calls `cls(*cls._struct.unpack(raw))`.
-/

/-- A decoded `struct` field value: the `8s` name field is a byte string, the
numeric fields are integers; `Structure.from_bytes` wraps the whole unpacked
tuple in one `.tup` positional argument. -/
inductive PyVal where
  | int : Nat → PyVal
  | bytes : List Nat → PyVal
  | tup : List PyVal → PyVal

/-- Model of `Section._field_names`. -/
def sectionFieldNames : List String :=
  ["name", "virtual_size", "rva", "physical_size", "physical_offset", "flags"]

/-- Model of `Section.sizeof = Section._struct.size` for format `'8s4L12xL'`:
8 + 4·4 + 12 + 4 bytes. -/
def sectionSizeof : Nat := 8 + 4 * 4 + 12 + 4

/-- Model of `Section._struct.unpack(buffer)`: demands exactly 40 bytes and yields the
name bytes, the four leading u32 fields, and (skipping 12 pad bytes) the
flags u32. -/
def sectionStructUnpack (bs : List Nat) : Option (List PyVal) :=
  if bs.length = sectionSizeof then
    some (PyVal.bytes (bs.take 8) ::
      ((structUnpack [4, 4, 4, 4] ((bs.drop 8).take 16)).map PyVal.int ++
        [PyVal.int (leValue ((bs.drop 36).take 4))]))
  else none

/-- Model of `Structure.__init__(*args)` with positional arguments: asserts
`len(args) == len(_field_names)` and zips names with values. -/
def structureInit (fieldNames : List String) (args : List PyVal) :
    Option (List (String × PyVal)) :=
  if args.length = fieldNames.length then some (fieldNames.zip args) else none

/-- Model of `Structure.from_bytes` for `Section`: `cls(cls._struct.unpack(buffer))` —
the unpacked tuple is passed as one positional argument. -/
def Section.from_bytes (bs : List Nat) : Option (List (String × PyVal)) :=
  (sectionStructUnpack bs).bind fun fields => structureInit sectionFieldNames [PyVal.tup fields]

/-- A section record with its named fields (the result of `Structure.read`,
which spreads the unpacked tuple: `cls(*cls._struct.unpack(raw))`). -/
structure SectionRec where
  name : List Nat
  virtual_size : Nat
  rva : Nat
  physical_size : Nat
  physical_offset : Nat
  flags : Nat
deriving DecidableEq

/-- Decoding one 40-byte record into a `SectionRec` (the `Structure.read` path). -/
def SectionRec.ofBytes (bs : List Nat) : Option SectionRec :=
  if bs.length = sectionSizeof then
    some ⟨bs.take 8, leValue ((bs.drop 8).take 4), leValue ((bs.drop 12).take 4),
      leValue ((bs.drop 16).take 4), leValue ((bs.drop 20).take 4),
      leValue ((bs.drop 36).take 4)⟩
  else none

/-- Model of `Structure.__bytes__` for `Section`: `self._struct.pack(*self)` — the `8s`
name padded to 8 bytes, four u32 fields, 12 zero pad bytes, the flags u32. -/
def SectionRec.toBytes (s : SectionRec) : List Nat :=
  (s.name.take 8 ++ List.replicate (8 - s.name.length) 0) ++
    leBytes 4 s.virtual_size ++ leBytes 4 s.rva ++ leBytes 4 s.physical_size ++
    leBytes 4 s.physical_offset ++ List.replicate 12 0 ++ leBytes 4 s.flags

/-- Model of `Section.offset_to_rva`. -/
def SectionRec.offset_to_rva (s : SectionRec) (offset : Int) : Int :=
  offset - s.physical_offset + s.rva

/-- Model of `Section.rva_to_offset`. -/
def SectionRec.rva_to_offset (s : SectionRec) (rva : Int) : Int :=
  rva - s.rva + s.physical_offset

/-- Python `bisect.bisect` (= `bisect_right`), modelled by its documented
behaviour on a sorted sequence: the insertion point that comes after any
entries equal to `x`, i.e. the number of leading elements `≤ x`. -/
def bisectRight (keys : List Int) (x : Int) : Nat :=
  (keys.takeWhile (fun k => k ≤ x)).length

/-- Python list indexing: non-negative indices from the front, negative
indices from the back, `none` (an `IndexError`) when out of range. -/
def pythonGet {α : Type} (l : List α) (i : Int) : Option α :=
  if 0 ≤ i then l[i.toNat]?
  else if (-i).toNat ≤ l.length then l[l.length - (-i).toNat]? else none

/-- The physical-offset keys of a section table
(`Key(self, lambda x: x.physical_offset)`). -/
def offsetKeys (t : List SectionRec) : List Int :=
  t.map fun s => (s.physical_offset : Int)

/-- The rva keys of a section table (`Key(self, lambda x: x.rva)`). -/
def rvaKeys (t : List SectionRec) : List Int :=
  t.map fun s => (s.rva : Int)

/-- Model of `SectionTable.offset_to_rva`: `i = bisect(self._offset_key, offset) - 1`
then `self[i].offset_to_rva(offset)` (Python indexing, so `i = -1` reaches the
last section). -/
def SectionTable.offset_to_rva (t : List SectionRec) (offset : Int) : Option Int :=
  (pythonGet t ((bisectRight (offsetKeys t) offset : Int) - 1)).map
    fun s => s.offset_to_rva offset

/-- Model of `SectionTable.rva_to_offset`, bisecting on rva. -/
def SectionTable.rva_to_offset (t : List SectionRec) (rva : Int) : Option Int :=
  (pythonGet t ((bisectRight (rvaKeys t) rva : Int) - 1)).map
    fun s => s.rva_to_offset rva

/-- Model of `SectionTable.which_section(offset=..., rva=...)`: the bisection index
minus one on whichever key is given, `None` when neither is. -/
def SectionTable.which_section (t : List SectionRec) (offset rva : Option Int) : Option Int :=
  match offset with
  | some o => some ((bisectRight (offsetKeys t) o : Int) - 1)
  | none =>
    match rva with
    | some r => some ((bisectRight (rvaKeys t) r : Int) - 1)
    | none => none

/-- The invariant `SectionTable.__init__` asserts: strictly increasing rvas
and strictly increasing physical offsets. -/
def SectionTable.WF (t : List SectionRec) : Prop :=
  t.Chain' (fun a b => a.rva < b.rva) ∧
    t.Chain' (fun a b => a.physical_offset < b.physical_offset)

instance (t : List SectionRec) : Decidable (SectionTable.WF t) :=
  inferInstanceAs (Decidable
    (t.Chain' (fun a b : SectionRec => a.rva < b.rva) ∧
      t.Chain' (fun a b : SectionRec => a.physical_offset < b.physical_offset)))

/-!
## Relocation table (`peclasses.py`, class `RelocationTable`)

The table is a Python dict from page base to a list of intra-page offsets,
modelled as an insertion-ordered association list (`List (Nat × List Nat)`).
-/

/-- Model of `bisect.insort(lst, x)`: insert `x` into a sorted list, after entries
equal to `x`. -/
def insortNat (x : Nat) : List Nat → List Nat
  | [] => [x]
  | y :: ys => if x < y then x :: y :: ys else y :: insortNat x ys

/-- One step of `RelocationTable.build`: create the page's list if absent
(a fresh dict key goes to the end), else `bisect.insort` the offset. -/
def addOffset : List (Nat × List Nat) → Nat → Nat → List (Nat × List Nat)
  | [], page, off => [(page, [off])]
  | (q, l) :: rest, page, off =>
    if q = page then (q, insortNat off l) :: rest
    else (q, l) :: addOffset rest page off

namespace RelocationTable

/-- Model of `RelocationTable.build(relocs)`: group addresses by `item & 0xFFFFF000`,
inserting each `item & 0x00000FFF` in sorted order. -/
def build (relocs : List Nat) : List (Nat × List Nat) :=
  relocs.foldl (fun t item => addOffset t (item &&& 0xFFFFF000) (item &&& 0x00000FFF)) []

/-- Model of `RelocationTable.__iter__`: for each page in dict order, yield
`page | (record & 0x0FFF)` for each record. -/
def iter (t : List (Nat × List Nat)) : List Nat :=
  t.flatMap fun pr => pr.2.map fun record => pr.1 ||| (record &&& 0x0FFF)

/-- Modelled from the spec: `align` comes from the external `disasm` module,
absent from the sources; per the spec it is the ceiling of `n` to the next
multiple of `m` (`ceil_to_even` for `m = 2`). -/
def align (n m : Nat) : Nat :=
  if n % m = 0 then n else (n / m + 1) * m

/-- Model of `RelocationTable.size`:
`len(table) * 8 + sum(align(len(val), 2) for val in table.values()) * 2`. -/
def size (t : List (Nat × List Nat)) : Nat :=
  t.length * 8 + (t.map fun pr => align pr.2.length 2).sum * 2

/-- Insert a pair into a list sorted by page key (`sorted(self._table)`). -/
def insortPair (x : Nat × List Nat) : List (Nat × List Nat) → List (Nat × List Nat)
  | [] => [x]
  | y :: ys => if x.1 < y.1 then x :: y :: ys else y :: insortPair x ys

/-- Model of `sorted(self._table)` followed by the per-page lookups: the table's
entries in ascending page order. -/
def sortPairs (t : List (Nat × List Nat)) : List (Nat × List Nat) :=
  t.foldr insortPair []

/-- The records `RelocationTable.to_file` emits for one page: each offset
tagged `IMAGE_REL_BASED_HIGHLOW << 12`, plus one
`IMAGE_REL_BASED_ABSOLUTE << 12 | 0` padding record when the count is odd. -/
def pageRecords (offs : List Nat) : List Nat :=
  let records := offs.map fun item => item ||| (3 <<< 12)
  if records.length % 2 = 1 then records ++ [0 <<< 12 ||| 0] else records

/-- One page's block as written by `RelocationTable.to_file`:
`array('L', [page, block_size])` then `array('H', records)`, with
`block_size = 8 + 2 * len(records)`. -/
def encodeBlock (pr : Nat × List Nat) : List Nat :=
  leBytes 4 pr.1 ++ leBytes 4 (8 + 2 * (pageRecords pr.2).length) ++
    (pageRecords pr.2).flatMap (leBytes 2)

/-- Model of `RelocationTable.to_file`: the pages' blocks in ascending page order. -/
def to_file (t : List (Nat × List Nat)) : List Nat :=
  (sortPairs t).flatMap encodeBlock

/-- Split a byte stream into consecutive little-endian u16 values
(`array('H').fromfile`). -/
def chunk2 : List Nat → List Nat
  | b0 :: b1 :: rest => (b0 + 256 * b1) :: chunk2 rest
  | _ => []

/-- Model of `RelocationTable.iter_read(file, reloc_size)`: while the consumed size is
below `reloc_size`, read a `{page:u32, block_size:u32}` header (a short read
still decodes, as `int.from_bytes` accepts short input), fail unless
`block_size > 8` and `(block_size - 8) % 2 == 0`, read `(block_size - 8) // 2`
u16 records (`array.fromfile` raises on a short read), and keep the records
whose high nibble is `IMAGE_REL_BASED_HIGHLOW`. -/
def iter_read (bs : List Nat) (restSize : Nat) : Option (List (Nat × List Nat)) :=
  if h : restSize = 0 then some []
  else
    let cur_page := leValue (bs.take 4)
    let bs1 := bs.drop 4
    let block_size := leValue (bs1.take 4)
    let bs2 := bs1.drop 4
    if hgt : block_size ≤ 8 then none
    else if (block_size - 8) % 2 ≠ 0 then none
    else
      let k := (block_size - 8) / 2
      if bs2.length < 2 * k then none
      else
        match iter_read (bs2.drop (2 * k)) (restSize - block_size) with
        | none => none
        | some rest =>
          some ((cur_page, (chunk2 (bs2.take (2 * k))).filter fun x => x >>> 12 = 3) :: rest)
termination_by restSize
decreasing_by
  have h9 : ¬ leValue (List.take 4 (List.drop 4 bs)) ≤ 8 := hgt
  omega

/-- Python `dict(pairs)`: a later binding of the same key overwrites the
earlier one in place. -/
def dictInsert : List (Nat × List Nat) → Nat × List Nat → List (Nat × List Nat)
  | [], kv => [kv]
  | (q, l) :: rest, kv =>
    if q = kv.1 then (q, kv.2) :: rest else (q, l) :: dictInsert rest kv

/-- Model of `dict(cls.iter_read(file, reloc_size))`. -/
def dictOfPairs (ps : List (Nat × List Nat)) : List (Nat × List Nat) :=
  ps.foldl dictInsert []

/-- Model of `RelocationTable.from_file`. -/
def from_file (bs : List Nat) (reloc_size : Nat) : Option (List (Nat × List Nat)) :=
  (iter_read bs reloc_size).map dictOfPairs

end RelocationTable

/-!
## MachineCode / Reference

Modelled from the spec: `machine_code.py` (classes `MachineCode` and
`Reference`) is not among the sources, only its tests are.  Per the spec, a
buffer is an ordered sequence of literal byte runs and deferred references;
a relative reference of width `size` at buffer offset `site` resolves to
`symbol_value - (origin_address + site + size)`, stored two's-complement
little-endian in `size` bytes, and an absolute reference stores the raw
symbol value little-endian in `size` bytes.
-/

/-- Modelled from the spec: one element of a `MachineCode` buffer — a literal
byte run, `Reference.relative(name, size)`, or `Reference.absolute(name, size)`. -/
inductive MCChunk where
  | lit : List Nat → MCChunk
  | rel : String → Nat → MCChunk
  | abs : String → Nat → MCChunk

/-- Modelled from the spec: resolve the chunks of a `MachineCode` buffer
starting at buffer offset `off`, given `origin_address` and the
symbol-name→value mapping `fields`; a missing symbol is an
`UnresolvedSymbolError` (`none`). -/
def resolveFrom (fields : String → Option Int) (origin : Nat) :
    Nat → List MCChunk → Option (List Nat)
  | _, [] => some []
  | off, MCChunk.lit bs :: cs =>
    (resolveFrom fields origin (off + bs.length) cs).map fun rest => bs ++ rest
  | off, MCChunk.rel name sz :: cs =>
    match fields name with
    | none => none
    | some v =>
      (resolveFrom fields origin (off + sz) cs).map fun rest =>
        leBytes sz ((v - (origin + off + sz : Int)) % ((2 : Int) ^ (8 * sz))).toNat ++ rest
  | off, MCChunk.abs name sz :: cs =>
    match fields name with
    | none => none
    | some v =>
      (resolveFrom fields origin (off + sz) cs).map fun rest =>
        leBytes sz (v % ((2 : Int) ^ (8 * sz))).toNat ++ rest

/-- Modelled from the spec: `bytes(code)` — resolve the whole buffer from
offset 0. -/
def MachineCode.toBytes (chunks : List MCChunk) (origin : Nat)
    (fields : String → Option Int) : Option (List Nat) :=
  resolveFrom fields origin 0 chunks

/-- The symbol name of the call target in `test_machinecode_1`. -/
def funcName : String := "func"

/-- The symbol name of the jump target in `test_machinecode_1`. -/
def returnAddrName : String := "return_addr"

/-- The buffer of `test_machinecode_1`:
`mov dword [esi+14h], 0Fh; call near func; mov edi, 0Fh; jmp near return_addr`. -/
def testMachineCode : List MCChunk :=
  [MCChunk.lit [0xC7, 0x46, 0x14, 0x0F, 0x00, 0x00, 0x00],
   MCChunk.lit [0xE8], MCChunk.rel funcName 4,
   MCChunk.lit [0xBF, 0x0F, 0x00, 0x00, 0x00],
   MCChunk.lit [0xE9], MCChunk.rel returnAddrName 4]

/-- The symbol table of `test_machinecode_1`. -/
def testFields : String → Option Int
  | "func" => some 0x222222
  | "return_addr" => some 0x777777
  | _ => none

/-- A sample section record with the given rva and physical offset. -/
def exSec (r p : Nat) : SectionRec :=
  ⟨[0x2E, 0x74, 0x65, 0x78, 0x74, 0, 0, 0], 0x1000, r, 0x200, p, 0x60000020⟩

/-- Two sections whose physical offsets are consecutive integers. -/
def tableTight : List SectionRec := [exSec 0x1000 0x400, exSec 0x2000 0x401]

/-- Two sections with a gap between their physical offsets. -/
def tableGap : List SectionRec := [exSec 0x1000 0x400, exSec 0x2000 0x600]

/-- The invariant of tables produced by `RelocationTable.build`: page keys are
distinct, each page holds a nonempty sorted list of sub-page offsets, and each
page base is 4K-aligned and below `2^32`. -/
def RTWF (t : List (Nat × List Nat)) : Prop :=
  (t.map Prod.fst).Nodup ∧
  ∀ pr ∈ t, pr.2 ≠ [] ∧ pr.2.Sorted (· ≤ ·) ∧ (∀ o ∈ pr.2, o < 4096) ∧
    pr.1 % 4096 = 0 ∧ pr.1 < 2 ^ 32

theorem leBytes_length (w v : Nat) : (leBytes w v).length = w := by
  induction w generalizing v with
  | zero => rfl
  | succ w ih => simp [leBytes, ih]

theorem leBytes_mem_lt (w v : Nat) : ∀ b ∈ leBytes w v, b < 256 := by
  induction w generalizing v with
  | zero => simp [leBytes]
  | succ w ih =>
    intro b hb
    simp only [leBytes, List.mem_cons] at hb
    rcases hb with h | h
    · omega
    · exact ih _ b h

theorem leValue_leBytes (w v : Nat) : leValue (leBytes w v) = v % 256 ^ w := by
  induction w generalizing v with
  | zero => simp [leBytes, leValue, Nat.mod_one]
  | succ w ih =>
    rw [leBytes, leValue, ih]
    rw [pow_succ, mul_comm (256 ^ w) 256, Nat.mod_mul]

theorem leBytes_leValue (bs : List Nat) (h : ∀ b ∈ bs, b < 256) :
    leBytes bs.length (leValue bs) = bs := by
  induction bs with
  | nil => rfl
  | cons b bs ih =>
    have hb : b < 256 := h b (List.mem_cons_self _ _)
    have hmod : (b + 256 * leValue bs) % 256 = b := by
      rw [Nat.add_mul_mod_self_left, Nat.mod_eq_of_lt hb]
    have hdiv : (b + 256 * leValue bs) / 256 = leValue bs := by
      rw [Nat.add_mul_div_left _ _ (by norm_num : (0:Nat) < 256),
        Nat.div_eq_of_lt hb, Nat.zero_add]
    simp only [List.length_cons, leBytes, leValue, hmod, hdiv]
    rw [ih (fun x hx => h x (List.mem_cons_of_mem _ hx))]

theorem leValue_lt (bs : List Nat) (h : ∀ b ∈ bs, b < 256) :
    leValue bs < 256 ^ bs.length := by
  induction bs with
  | nil => simp [leValue]
  | cons b bs ih =>
    have hb : b < 256 := h b (List.mem_cons_self _ _)
    have := ih (fun x hx => h x (List.mem_cons_of_mem _ hx))
    simp only [leValue, List.length_cons, pow_succ]
    calc b + 256 * leValue bs < 256 + 256 * leValue bs := by omega
    _ = 256 * (leValue bs + 1) := by ring
    _ ≤ 256 * 256 ^ bs.length := by
        have : leValue bs + 1 ≤ 256 ^ bs.length := this
        exact Nat.mul_le_mul_left _ this
    _ = 256 ^ bs.length * 256 := by ring

theorem structPack_structUnpack (ws : List Nat) (bs : List Nat)
    (hlen : bs.length = ws.sum) (hmem : ∀ b ∈ bs, b < 256) :
    structPack ws (structUnpack ws bs) = bs := by
  induction ws generalizing bs with
  | nil =>
    simp only [List.sum_nil] at hlen
    have h0 : structPack [] (structUnpack [] bs) = [] := rfl
    rw [h0]
    exact (List.eq_nil_of_length_eq_zero hlen).symm
  | cons w ws ih =>
    rw [structUnpack, structPack]
    have htake : (bs.take w).length = w := by
      rw [List.length_take]
      simp only [List.sum_cons] at hlen
      omega
    have h1 : leBytes w (leValue (bs.take w)) = bs.take w := by
      have h2 := leBytes_leValue (bs.take w) (fun b hb => hmem b (List.mem_of_mem_take hb))
      rwa [htake] at h2
    rw [h1, ih (bs.drop w) (by simp only [List.length_drop, List.sum_cons] at hlen ⊢; omega)
      (fun b hb => hmem b (List.mem_of_mem_drop hb))]
    exact List.take_append_drop w bs

theorem structPack_length (ws vs : List Nat) (h : vs.length = ws.length) :
    (structPack ws vs).length = ws.sum := by
  induction ws generalizing vs with
  | nil =>
    cases vs with
    | nil => rfl
    | cons v vs => simp at h
  | cons w ws ih =>
    cases vs with
    | nil => simp at h
    | cons v vs =>
      rw [structPack]
      simp only [List.length_append, leBytes_length, List.sum_cons]
      rw [ih vs (by simpa using h)]

theorem structUnpack_length (ws bs : List Nat) : (structUnpack ws bs).length = ws.length := by
  induction ws generalizing bs with
  | nil => rfl
  | cons w ws ih => simp [structUnpack, ih]

/-!
## Bisection lemmas
-/

theorem bisectRight_nil (x : Int) : bisectRight [] x = 0 := rfl

theorem bisectRight_cons_le {k : Int} (ks : List Int) {x : Int} (h : k ≤ x) :
    bisectRight (k :: ks) x = bisectRight ks x + 1 := by
  simp [bisectRight, List.takeWhile_cons, h]

theorem bisectRight_cons_gt {k : Int} (ks : List Int) {x : Int} (h : ¬ k ≤ x) :
    bisectRight (k :: ks) x = 0 := by
  simp [bisectRight, List.takeWhile_cons, h]

theorem bisectRight_le_length (keys : List Int) (x : Int) :
    bisectRight keys x ≤ keys.length :=
  Nat.le_trans (List.length_le_of_sublist (List.takeWhile_sublist _)) (Nat.le_refl _)

theorem bisectRight_get_le (keys : List Int) (x : Int) :
    ∀ j, j < bisectRight keys x → ∀ hlen : j < keys.length, keys[j] ≤ x := by
  induction keys with
  | nil => intro j hj; simp [bisectRight_nil] at hj
  | cons k ks ih =>
    intro j hj hlen
    by_cases h : k ≤ x
    · rw [bisectRight_cons_le ks h] at hj
      cases j with
      | zero => simpa using h
      | succ j =>
        simp only [List.getElem_cons_succ]
        exact ih j (by omega) (by simpa using hlen)
    · rw [bisectRight_cons_gt ks h] at hj
      omega

theorem bisectRight_get_gt (keys : List Int) (x : Int) (hp : keys.Pairwise (· < ·)) :
    ∀ j, bisectRight keys x ≤ j → ∀ hlen : j < keys.length, x < keys[j] := by
  induction keys with
  | nil => intro j _ hlen; simp at hlen
  | cons k ks ih =>
    rcases List.pairwise_cons.mp hp with ⟨hk, hks⟩
    intro j hj hlen
    by_cases h : k ≤ x
    · rw [bisectRight_cons_le ks h] at hj
      cases j with
      | zero => omega
      | succ j =>
        simp only [List.getElem_cons_succ]
        exact ih hks j (by omega) (by simpa using hlen)
    · cases j with
      | zero => simpa using (by omega : x < k)
      | succ j =>
        have hjlen : j < ks.length := by simpa using hlen
        simp only [List.getElem_cons_succ]
        have hm : ks[j] ∈ ks := List.getElem_mem _
        exact lt_trans (by omega : x < k) (hk _ hm)

/-- The bisection-and-index step shared by `SectionTable.offset_to_rva` and
`SectionTable.rva_to_offset`: when the key of the first section is at most
`x`, `self[bisect(keys, x) - 1]` is a section whose key is at most `x` while
every later section's key exceeds `x`. -/
theorem bisect_select (t : List SectionRec) (f : SectionRec → Nat) (x : Int)
    (hchain : t.Chain' fun a b => f a < f b) (hne : t ≠ [])
    (hhead : (f (t.head hne) : Int) ≤ x) :
    ∃ i, ∃ hi : i < t.length,
      pythonGet t ((bisectRight (t.map fun s => (f s : Int)) x : Int) - 1) = some t[i] ∧
      (f t[i] : Int) ≤ x ∧
      ∀ j, ∀ hj : j < t.length, i < j → x < (f t[j] : Int) := by
  set keys := t.map fun s => (f s : Int) with hkeys
  have hklen : keys.length = t.length := by simp [hkeys]
  have hp : keys.Pairwise (· < ·) := by
    have hck : keys.Chain' (· < ·) := by
      rw [hkeys, List.chain'_map]
      exact hchain.imp fun a b h => by exact_mod_cast h
    exact List.chain'_iff_pairwise.mp hck
  have hc1 : 1 ≤ bisectRight keys x := by
    obtain ⟨s, ts, rfl⟩ := List.exists_cons_of_ne_nil hne
    have : keys = (f s : Int) :: ts.map fun s => (f s : Int) := by simp [hkeys]
    rw [this, bisectRight_cons_le _ (by simpa using hhead)]
    omega
  have hc2 : bisectRight keys x ≤ t.length := hklen ▸ bisectRight_le_length keys x
  refine ⟨bisectRight keys x - 1, by omega, ?_, ?_, ?_⟩
  · have h0 : (0 : Int) ≤ (bisectRight keys x : Int) - 1 := by omega
    rw [pythonGet, if_pos h0]
    have htn : ((bisectRight keys x : Int) - 1).toNat = bisectRight keys x - 1 := by omega
    rw [htn]
    exact List.getElem?_eq_getElem (by omega)
  · have := bisectRight_get_le keys x (bisectRight keys x - 1) (by omega)
      (by omega : bisectRight keys x - 1 < keys.length)
    simpa [hkeys] using this
  · intro j hj hij
    have := bisectRight_get_gt keys x hp j (by omega) (by omega : j < keys.length)
    simpa [hkeys] using this

/-- A two-section table satisfying the `SectionTable` invariant. -/
theorem wf_pair (s0 s1 : SectionRec) (h1 : s0.rva < s1.rva)
    (h2 : s0.physical_offset < s1.physical_offset) : SectionTable.WF [s0, s1] :=
  ⟨List.chain'_pair.mpr h1, List.chain'_pair.mpr h2⟩

/-- C4: for a section table with strictly increasing rvas and physical
offsets and a file offset at least the first section's physical offset,
`offset_to_rva` picks the rightmost section whose physical offset is at most
the file offset and returns `file_offset - physical_offset + rva`;
`rva_to_offset` is the symmetric translation bisecting on rva. -/
theorem c4_translation (t : List SectionRec) (off rva : Int)
    (hwf : SectionTable.WF t) (hne : t ≠ [])
    (hoff : ((t.head hne).physical_offset : Int) ≤ off)
    (hrva : ((t.head hne).rva : Int) ≤ rva) :
    (∃ i, ∃ hi : i < t.length,
      SectionTable.offset_to_rva t off = some (off - t[i].physical_offset + t[i].rva) ∧
      (t[i].physical_offset : Int) ≤ off ∧
      ∀ j, ∀ hj : j < t.length, i < j → off < (t[j].physical_offset : Int)) ∧
    (∃ i, ∃ hi : i < t.length,
      SectionTable.rva_to_offset t rva = some (rva - t[i].rva + t[i].physical_offset) ∧
      (t[i].rva : Int) ≤ rva ∧
      ∀ j, ∀ hj : j < t.length, i < j → rva < (t[j].rva : Int)) := by
  constructor
  · rcases bisect_select t (fun s => s.physical_offset) off hwf.2 hne hoff with
      ⟨i, hi, hget, hle, hgt⟩
    refine ⟨i, hi, ?_, hle, hgt⟩
    unfold SectionTable.offset_to_rva offsetKeys
    rw [hget]
    rfl
  · rcases bisect_select t (fun s => s.rva) rva hwf.1 hne hrva with
      ⟨i, hi, hget, hle, hgt⟩
    refine ⟨i, hi, ?_, hle, hgt⟩
    unfold SectionTable.rva_to_offset rvaKeys
    rw [hget]
    rfl

/-- Witness for C4 at a concrete table and addresses. -/
theorem c4_translation_witness :
    (∃ i, ∃ hi : i < tableGap.length,
      SectionTable.offset_to_rva tableGap (0x450 : Int) =
        some ((0x450 : Int) - (tableGap[i].physical_offset : Int) + (tableGap[i].rva : Int)) ∧
      (tableGap[i].physical_offset : Int) ≤ (0x450 : Int) ∧
      ∀ j, ∀ hj : j < tableGap.length, i < j →
        (0x450 : Int) < (tableGap[j].physical_offset : Int)) ∧
    (∃ i, ∃ hi : i < tableGap.length,
      SectionTable.rva_to_offset tableGap (0x2500 : Int) =
        some ((0x2500 : Int) - (tableGap[i].rva : Int) + (tableGap[i].physical_offset : Int)) ∧
      (tableGap[i].rva : Int) ≤ (0x2500 : Int) ∧
      ∀ j, ∀ hj : j < tableGap.length, i < j → (0x2500 : Int) < (tableGap[j].rva : Int)) :=
  c4_translation tableGap (0x450 : Int) (0x2500 : Int)
    (wf_pair _ _ (by decide) (by decide)) (by decide) (by decide) (by decide)

/-- C10: a file offset (or rva) strictly before the first section does not
raise: the bisection index is `-1`, Python's negative indexing selects the
last section, and the translation is computed from it. -/
theorem c10_negative_index (t : List SectionRec) (off rva : Int)
    (hwf : SectionTable.WF t) (hne : t ≠ [])
    (hoff : off < ((t.head hne).physical_offset : Int))
    (hrva : rva < ((t.head hne).rva : Int)) :
    SectionTable.offset_to_rva t off =
      some (off - (t.getLast hne).physical_offset + (t.getLast hne).rva) ∧
    SectionTable.rva_to_offset t rva =
      some (rva - (t.getLast hne).rva + (t.getLast hne).physical_offset) := by
  obtain ⟨s, ts, rfl⟩ := List.exists_cons_of_ne_nil hne
  have hlast : (s :: ts)[(s :: ts).length - 1]? = some ((s :: ts).getLast hne) := by
    rw [List.getLast_eq_getElem]
    exact List.getElem?_eq_getElem (by simp)
  constructor
  · have hb : bisectRight (offsetKeys (s :: ts)) off = 0 := by
      have : offsetKeys (s :: ts) = (s.physical_offset : Int) :: offsetKeys ts := rfl
      rw [this]
      exact bisectRight_cons_gt _ (by simp only [List.head] at hoff; omega)
    unfold SectionTable.offset_to_rva
    rw [hb]
    have hneg : ¬ (0 : Int) ≤ (0 : Nat) - 1 := by norm_num
    rw [pythonGet, if_neg hneg]
    have h1 : ((-((0 : Nat) - 1 : Int)).toNat : Nat) = 1 := by norm_num
    rw [h1, if_pos (by simp)]
    rw [hlast]
    rfl
  · have hb : bisectRight (rvaKeys (s :: ts)) rva = 0 := by
      have : rvaKeys (s :: ts) = (s.rva : Int) :: rvaKeys ts := rfl
      rw [this]
      exact bisectRight_cons_gt _ (by simp only [List.head] at hrva; omega)
    unfold SectionTable.rva_to_offset
    rw [hb]
    have hneg : ¬ (0 : Int) ≤ (0 : Nat) - 1 := by norm_num
    rw [pythonGet, if_neg hneg]
    have h1 : ((-((0 : Nat) - 1 : Int)).toNat : Nat) = 1 := by norm_num
    rw [h1, if_pos (by simp)]
    rw [hlast]
    rfl

/-- Witness for C10: an offset and rva before the first section translate
through the last section. -/
theorem c10_negative_index_witness :
    SectionTable.offset_to_rva tableGap 0x3FF = some (0x3FF - 0x600 + 0x2000) ∧
    SectionTable.rva_to_offset tableGap 0xFFF = some (0xFFF - 0x2000 + 0x600) :=
  c10_negative_index tableGap (0x3FF : Int) (0xFFF : Int)
    (wf_pair _ _ (by decide) (by decide)) (by decide) (by decide) (by decide)

/-- Counterexample to C5 as stated: in a well-formed table whose second
section starts at `S0.physical_offset + 1`, `which_section` at
`S0.physical_offset + 1` returns 1, not 0. -/
theorem c5_counterexample :
    SectionTable.WF tableTight ∧
    SectionTable.which_section tableTight (some ((0x400 : Int) + 1)) none = some 1 ∧
    SectionTable.which_section tableTight (some ((0x400 : Int) + 1)) none ≠ some 0 :=
  ⟨wf_pair _ _ (by decide) (by decide), by decide, by decide⟩

/-- C5 (amended): for a well-formed table, `which_section` returns the
sentinel `-1` one byte before the first section and `0` at its physical
offset; it also returns `0` one byte after, provided no further section
starts at `S0.physical_offset + 1`. -/
theorem c5_which_section (s0 : SectionRec) (rest : List SectionRec)
    (hwf : SectionTable.WF (s0 :: rest))
    (hgap : ∀ s1 ∈ rest.head?, s0.physical_offset + 1 < s1.physical_offset) :
    SectionTable.which_section (s0 :: rest)
      (some ((s0.physical_offset : Int) - 1)) none = some (-1) ∧
    SectionTable.which_section (s0 :: rest)
      (some (s0.physical_offset : Int)) none = some 0 ∧
    SectionTable.which_section (s0 :: rest)
      (some ((s0.physical_offset : Int) + 1)) none = some 0 := by
  have hkeys : offsetKeys (s0 :: rest) = (s0.physical_offset : Int) :: offsetKeys rest := rfl
  refine ⟨?_, ?_, ?_⟩
  · show some ((bisectRight (offsetKeys (s0 :: rest)) _ : Int) - 1) = some (-1)
    rw [hkeys, bisectRight_cons_gt _ (by omega)]
    norm_num
  · show some ((bisectRight (offsetKeys (s0 :: rest)) _ : Int) - 1) = some 0
    rw [hkeys, bisectRight_cons_le _ (by omega)]
    have h0 : bisectRight (offsetKeys rest) (s0.physical_offset : Int) = 0 := by
      cases rest with
      | nil => rfl
      | cons s1 ts =>
        have hlt : s0.physical_offset < s1.physical_offset :=
          (List.chain'_cons.mp hwf.2).1
        show bisectRight ((s1.physical_offset : Int) :: offsetKeys ts) _ = 0
        exact bisectRight_cons_gt _ (by push_cast; omega)
    rw [h0]
    norm_num
  · show some ((bisectRight (offsetKeys (s0 :: rest)) _ : Int) - 1) = some 0
    rw [hkeys, bisectRight_cons_le _ (by omega)]
    have h0 : bisectRight (offsetKeys rest) ((s0.physical_offset : Int) + 1) = 0 := by
      cases rest with
      | nil => rfl
      | cons s1 ts =>
        have hlt : s0.physical_offset + 1 < s1.physical_offset :=
          hgap s1 (by simp)
        show bisectRight ((s1.physical_offset : Int) :: offsetKeys ts) _ = 0
        exact bisectRight_cons_gt _ (by push_cast; omega)
    rw [h0]
    norm_num

/-- Witness for the amended C5 on a concrete gapped table. -/
theorem c5_which_section_witness :
    SectionTable.which_section tableGap (some ((0x400 : Int) - 1)) none = some (-1) ∧
    SectionTable.which_section tableGap (some ((0x400 : Int) : Int)) none = some 0 ∧
    SectionTable.which_section tableGap (some ((0x400 : Int) + 1)) none = some 0 :=
  c5_which_section (exSec 0x1000 0x400) [exSec 0x2000 0x600]
    (wf_pair _ _ (by decide) (by decide)) (by intro s1 hs1; simp at hs1; subst hs1; decide)

/-- C3: the test buffer of `test_machinecode_1` resolved at origin
`0x123456` with `func = 0x222222` and `return_addr = 0x777777` serializes to
exactly the expected byte string, and in general a relative reference of
width `sz` at buffer offset `off` stores
`symbol_value - (origin + off + sz)` two's-complement little-endian in
`sz` bytes. -/
theorem c3_machinecode :
    MachineCode.toBytes testMachineCode 0x123456 testFields =
      some [0xC7, 0x46, 0x14, 0x0F, 0x00, 0x00, 0x00,
            0xE8, 0xC0, 0xED, 0x0F, 0x00,
            0xBF, 0x0F, 0x00, 0x00, 0x00,
            0xE9, 0x0B, 0x43, 0x65, 0x00] ∧
    ∀ (fields : String → Option Int) (origin off sz : Nat) (name : String) (v : Int)
      (cs : List MCChunk) (rest : List Nat),
      fields name = some v →
      resolveFrom fields origin (off + sz) cs = some rest →
      resolveFrom fields origin off (MCChunk.rel name sz :: cs) =
        some (leBytes sz ((v - (origin + off + sz : Int)) % ((2 : Int) ^ (8 * sz))).toNat
          ++ rest) := by
  constructor
  · rfl
  · intro fields origin off sz name v cs rest h1 h2
    rw [resolveFrom, h1, h2]
    rfl

/-- Witness for the general relative-reference law of C3 at concrete inputs. -/
theorem c3_machinecode_witness :
    resolveFrom testFields 0x123456 8 [MCChunk.rel funcName 4] =
      some (leBytes 4 (((0x222222 : Int) - ((0x123456 : Nat) + (8 : Nat) + (4 : Nat) : Int)) %
        ((2 : Int) ^ (8 * 4))).toNat ++ []) :=
  c3_machinecode.2 testFields 0x123456 8 4 funcName 0x222222 [] [] rfl rfl

/-- C6: `Structure.from_bytes` can never produce a section record — it hands
the whole unpacked field tuple to `Structure.__init__` as a single positional
argument, so the arity assertion `len(args) == len(_field_names)` (1 vs 6)
fails for every input; moreover the record is 40 bytes, not 32.  The
data-directory-entry half of the round-trip does hold. -/
theorem c6_from_bytes_never_decodes :
    (∀ bs : List Nat, Section.from_bytes bs = none) ∧
    sectionSizeof = 40 ∧
    (DataDirectoryEntry.unpack [1, 2, 3, 4, 5, 6, 7, 8]).map DataDirectoryEntry.toBytes =
      some [1, 2, 3, 4, 5, 6, 7, 8] := by
  refine ⟨?_, rfl, by decide⟩
  intro bs
  unfold Section.from_bytes
  by_cases h : bs.length = sectionSizeof
  · rw [sectionStructUnpack, if_pos h]
    rfl
  · rw [sectionStructUnpack, if_neg h]
    rfl

theorem chunkPairs_enc (bs : List Nat) (hmem : ∀ b ∈ bs, b < 256)
    (hdvd : 8 ∣ bs.length) :
    (chunkPairs bs).flatMap DataDirectoryEntry.toBytes = bs := by
  induction bs using chunkPairs.induct with
  | case1 b0 b1 b2 b3 b4 b5 b6 b7 rest ih =>
    have h1 : leBytes 4 (leValue [b0, b1, b2, b3]) = [b0, b1, b2, b3] := by
      have := leBytes_leValue [b0, b1, b2, b3] (by intro b hb; apply hmem; simp at hb ⊢; tauto)
      simpa using this
    have h2 : leBytes 4 (leValue [b4, b5, b6, b7]) = [b4, b5, b6, b7] := by
      have := leBytes_leValue [b4, b5, b6, b7] (by intro b hb; apply hmem; simp at hb ⊢; tauto)
      simpa using this
    have hrest := ih (by intro b hb; apply hmem; simp [hb])
      (by simp only [List.length_cons] at hdvd ⊢; omega)
    simp only [chunkPairs, List.flatMap_cons, DataDirectoryEntry.toBytes, h1, h2, hrest]
    rfl
  | case2 t h =>
    rcases t with _ | ⟨b0, _ | ⟨b1, _ | ⟨b2, _ | ⟨b3, _ | ⟨b4, _ | ⟨b5, _ | ⟨b6, _ | ⟨b7, rest⟩⟩⟩⟩⟩⟩⟩⟩
    · rfl
    · simp at hdvd
    · simp at hdvd; omega
    · simp at hdvd; omega
    · simp at hdvd; omega
    · simp at hdvd; omega
    · simp at hdvd; omega
    · simp at hdvd; omega
    · exact absurd rfl (h b0 b1 b2 b3 b4 b5 b6 b7 rest)

theorem chunkPairs_short (bs : List Nat) (h : bs.length < 8) : chunkPairs bs = [] := by
  rcases bs with _ | ⟨b0, _ | ⟨b1, _ | ⟨b2, _ | ⟨b3, _ | ⟨b4, _ | ⟨b5, _ | ⟨b6, _ | ⟨b7, rest⟩⟩⟩⟩⟩⟩⟩⟩
  · rfl
  · rfl
  · rfl
  · rfl
  · rfl
  · rfl
  · rfl
  · rfl
  · simp at h; omega

theorem length_lt_of_chunkPairs_stuck (t : List Nat)
    (h : ∀ (b0 b1 b2 b3 b4 b5 b6 b7 : Nat) (rest : List Nat),
      t = b0 :: b1 :: b2 :: b3 :: b4 :: b5 :: b6 :: b7 :: rest → False) :
    t.length < 8 := by
  rcases t with _ | ⟨b0, _ | ⟨b1, _ | ⟨b2, _ | ⟨b3, _ | ⟨b4, _ | ⟨b5, _ | ⟨b6, _ | ⟨b7, rest⟩⟩⟩⟩⟩⟩⟩⟩
  · simp
  · simp
  · simp
  · simp
  · simp
  · simp
  · simp
  · simp
  · exact absurd rfl (h b0 b1 b2 b3 b4 b5 b6 b7 rest)

theorem chunkPairs_append (xs ys : List Nat) (hdvd : 8 ∣ xs.length) :
    chunkPairs (xs ++ ys) = chunkPairs xs ++ chunkPairs ys := by
  induction xs using chunkPairs.induct with
  | case1 b0 b1 b2 b3 b4 b5 b6 b7 rest ih =>
    have hrest : 8 ∣ rest.length := by simp only [List.length_cons] at hdvd ⊢; omega
    simp only [List.cons_append, chunkPairs, List.append_eq, ih hrest]
  | case2 t h =>
    have hshort : t.length < 8 := length_lt_of_chunkPairs_stuck t h
    have hlen0 : t.length = 0 := by omega
    have ht : t = [] := List.eq_nil_of_length_eq_zero hlen0
    subst ht
    simp [chunkPairs]

theorem chunkPairs_length (bs : List Nat) : (chunkPairs bs).length = bs.length / 8 := by
  induction bs using chunkPairs.induct with
  | case1 b0 b1 b2 b3 b4 b5 b6 b7 rest ih =>
    simp only [chunkPairs, List.length_cons, ih]
    omega
  | case2 t h =>
    have hshort : t.length < 8 := length_lt_of_chunkPairs_stuck t h
    rw [chunkPairs_short t hshort]
    simp
    omega

/-- Decoding then re-encoding the 128-byte data-directory region reproduces
it exactly when the 16th (dropped) entry is all zero bytes. -/
theorem dataDirectory_roundtrip (bs : List Nat) (hlen : bs.length = 128)
    (hmem : ∀ b ∈ bs, b < 256) (hlast : bs.drop 120 = List.replicate 8 0) :
    DataDirectory.toBytes (DataDirectory.decode bs) = bs := by
  have hsplit : bs.take 120 ++ bs.drop 120 = bs := List.take_append_drop 120 bs
  have htlen : (bs.take 120).length = 120 := by rw [List.length_take]; omega
  have hchunks : chunkPairs bs = chunkPairs (bs.take 120) ++ [(0, 0)] := by
    conv_lhs => rw [← hsplit]
    rw [chunkPairs_append _ _ (by rw [htlen]; norm_num), hlast]
    rfl
  have hclen : (chunkPairs (bs.take 120)).length = 15 := by
    rw [chunkPairs_length, htlen]
  have hdec : DataDirectory.decode bs = chunkPairs (bs.take 120) := by
    rw [DataDirectory.decode, hchunks, ← hclen, List.take_left]
  rw [hdec, DataDirectory.toBytes,
    chunkPairs_enc _ (fun b hb => hmem b (List.mem_of_mem_take hb)) (by rw [htlen]; norm_num),
    ← hlast, hsplit]

set_option maxRecDepth 4000 in
/-- Counterexample to C1 as stated: re-encoding a parsed 224-byte optional
header does not reproduce the raw bytes — `__bytes__` writes only the 30
numeric fields (`0x60` bytes) and drops the embedded data directory. -/
theorem c1_counterexample :
    ¬ ((ImageOptionalHeader.decode (List.replicate 224 1)).map ImageOptionalHeader.toBytes =
        some (List.replicate 224 1)) := by decide

/-- C1 (amended): for an unmutated 224-byte optional header,
`ImageOptionalHeader.__bytes__` reproduces exactly the first `0x60` raw bytes
(the numeric fields), and `DataDirectory.__bytes__` reproduces the remaining
128 raw bytes provided the 16th (reserved) raw entry is zero; the DOS and
COFF file headers keep their raw snapshot but define no re-encoder. -/
theorem c1_optional_header_reencode (raw : List Nat) (hlen : raw.length = 224)
    (hmem : ∀ b ∈ raw, b < 256) :
    ∃ h, ImageOptionalHeader.decode raw = some h ∧
      ImageOptionalHeader.toBytes h = raw.take 96 ∧
      (raw.drop 216 = List.replicate 8 0 →
        DataDirectory.toBytes h.data_directory = raw.drop 96) := by
  rw [ImageOptionalHeader.decode, if_pos hlen]
  refine ⟨_, rfl, ?_, ?_⟩
  · rw [ImageOptionalHeader.toBytes]
    have hsum : optionalHeaderWidths.sum = 96 := by decide
    exact structPack_structUnpack optionalHeaderWidths (raw.take 96)
      (by rw [List.length_take, hsum]; omega) (fun b hb => hmem b (List.mem_of_mem_take hb))
  · intro hz
    show DataDirectory.toBytes (DataDirectory.decode (raw.drop 96)) = raw.drop 96
    refine dataDirectory_roundtrip _ (by rw [List.length_drop]; omega)
      (fun b hb => hmem b (List.mem_of_mem_drop hb)) ?_
    rw [List.drop_drop]
    exact hz

/-- Witness for the amended C1 on a concrete header whose 16th directory
entry is zero. -/
theorem c1_optional_header_reencode_witness :
    ∃ h, ImageOptionalHeader.decode (List.replicate 216 1 ++ List.replicate 8 0) = some h ∧
      ImageOptionalHeader.toBytes h = (List.replicate 216 1 ++ List.replicate 8 0).take 96 ∧
      ((List.replicate 216 1 ++ List.replicate 8 0).drop 216 = List.replicate 8 0 →
        DataDirectory.toBytes h.data_directory =
          (List.replicate 216 1 ++ List.replicate 8 0).drop 96) :=
  c1_optional_header_reencode _
    (by rw [List.length_append, List.length_replicate, List.length_replicate])
    (by
      intro b hb
      simp only [List.mem_append] at hb
      rcases hb with h | h <;> rw [List.eq_of_mem_replicate h] <;> omega)

/-!
## Bit-level lemmas for relocation addresses
-/

theorem band_fff_eq_mod (a : Nat) : a &&& 0xFFF = a % 4096 := by
  have h : (0xFFF : Nat) = 2 ^ 12 - 1 := by norm_num
  rw [h, Nat.and_pow_two_sub_one_eq_mod]

theorem hiMask_eq : (0xFFFFF000 : Nat) = (2 ^ 20 - 1) <<< 12 := by decide

theorem loMask_eq : (0xFFF : Nat) = 2 ^ 12 - 1 := by norm_num

theorem testBit_lo (o i : Nat) (ho : o < 4096) (hi : 12 ≤ i) : o.testBit i = false :=
  Nat.testBit_lt_two_pow (lt_of_lt_of_le (by omega : o < 2 ^ 12)
    (Nat.pow_le_pow_right (by norm_num) hi))

theorem hi_or_lo (a : Nat) (h : a < 2 ^ 32) :
    (a &&& 0xFFFFF000) ||| (a &&& 0xFFF) = a := by
  apply Nat.eq_of_testBit_eq
  intro i
  rw [Nat.testBit_or, Nat.testBit_and, Nat.testBit_and, hiMask_eq, loMask_eq,
    Nat.testBit_shiftLeft, Nat.testBit_two_pow_sub_one, Nat.testBit_two_pow_sub_one]
  by_cases hi32 : i < 32
  · by_cases hi12 : i < 12
    · simp [hi12, show ¬ 12 ≤ i by omega]
    · simp [hi12, show 12 ≤ i by omega, show i - 12 < 20 by omega]
  · have hz : a.testBit i = false :=
      Nat.testBit_lt_two_pow (lt_of_lt_of_le h (Nat.pow_le_pow_right (by norm_num) (by omega)))
    simp [hz]


theorem band_hi_mod (a : Nat) : (a &&& 0xFFFFF000) % 4096 = 0 := by
  rw [← band_fff_eq_mod]
  apply Nat.eq_of_testBit_eq
  intro i
  rw [Nat.testBit_and, Nat.testBit_and, hiMask_eq, loMask_eq, Nat.testBit_shiftLeft,
    Nat.testBit_two_pow_sub_one, Nat.testBit_two_pow_sub_one, Nat.zero_testBit]
  by_cases hi12 : i < 12
  · simp [hi12, show ¬ 12 ≤ i by omega]
  · simp [hi12]

theorem or_and_lo (p o : Nat) (hp : p % 4096 = 0) (ho : o < 4096) :
    (p ||| o) &&& 0xFFF = o := by
  apply Nat.eq_of_testBit_eq
  intro i
  rw [Nat.testBit_and, Nat.testBit_or, loMask_eq, Nat.testBit_two_pow_sub_one]
  by_cases hi12 : i < 12
  · have hpz : p.testBit i = false := by
      have h1 : p % 2 ^ 12 = 0 := by omega
      have h2 := Nat.testBit_mod_two_pow p 12 i
      rw [h1, Nat.zero_testBit] at h2
      simpa [hi12] using h2.symm
    simp [hi12, hpz]
  · simp [hi12, testBit_lo o i ho (by omega)]

theorem tag_mask (o : Nat) (ho : o < 4096) : (o ||| 3 <<< 12) &&& 0xFFF = o := by
  apply Nat.eq_of_testBit_eq
  intro i
  rw [Nat.testBit_and, Nat.testBit_or, loMask_eq, Nat.testBit_two_pow_sub_one,
    Nat.testBit_shiftLeft]
  by_cases hi12 : i < 12
  · simp [hi12, show ¬ 12 ≤ i by omega]
  · simp [hi12, testBit_lo o i ho (by omega)]

theorem tag_shift (o : Nat) (ho : o < 4096) : (o ||| 3 <<< 12) >>> 12 = 3 := by
  apply Nat.eq_of_testBit_eq
  intro i
  rw [Nat.testBit_shiftRight, Nat.testBit_or, Nat.testBit_shiftLeft]
  simp [testBit_lo o (12 + i) ho (by omega), show 12 ≤ 12 + i by omega,
    show 12 + i - 12 = i by omega]

theorem tag_lt (o : Nat) (ho : o < 4096) : o ||| 3 <<< 12 < 65536 := by
  have h1 : o < 2 ^ 16 := by omega
  have h2 : 3 <<< 12 < 2 ^ 16 := by decide
  have h3 := Nat.or_lt_two_pow h1 h2
  omega

theorem pad_shift : (0 <<< 12 ||| 0 : Nat) >>> 12 = 0 := by decide

/-!
## `build` invariants
-/

theorem insortNat_perm (x : Nat) (l : List Nat) : (insortNat x l).Perm (x :: l) := by
  induction l with
  | nil => exact List.Perm.refl _
  | cons y ys ih =>
    rw [insortNat]
    by_cases h : x < y
    · rw [if_pos h]
    · rw [if_neg h]
      exact (ih.cons y).trans (List.Perm.swap x y ys)

theorem insortNat_mem {a x : Nat} {l : List Nat} :
    a ∈ insortNat x l ↔ a = x ∨ a ∈ l := by
  rw [(insortNat_perm x l).mem_iff]
  simp

theorem insortNat_sorted (x : Nat) (l : List Nat) (hs : l.Sorted (· ≤ ·)) :
    (insortNat x l).Sorted (· ≤ ·) := by
  induction l with
  | nil => simp [insortNat]
  | cons y ys ih =>
    rw [insortNat]
    rcases List.sorted_cons.mp hs with ⟨hy, hys⟩
    by_cases h : x < y
    · rw [if_pos h]
      refine List.sorted_cons.mpr ⟨?_, hs⟩
      intro b hb
      rcases List.mem_cons.mp hb with rfl | hb
      · omega
      · exact le_trans (by omega) (hy b hb)
    · rw [if_neg h]
      refine List.sorted_cons.mpr ⟨?_, ih hys⟩
      intro b hb
      rcases insortNat_mem.mp hb with rfl | hb
      · omega
      · exact hy b hb

theorem addOffset_fst_mem (t : List (Nat × List Nat)) (p off : Nat) :
    ∀ q ∈ (addOffset t p off).map Prod.fst, q ∈ t.map Prod.fst ∨ q = p := by
  induction t with
  | nil => intro q hq; simp [addOffset] at hq; right; exact hq
  | cons pr rest ih =>
    intro q hq
    obtain ⟨r, l⟩ := pr
    rw [addOffset] at hq
    by_cases h : r = p
    · rw [if_pos h] at hq
      simp at hq ⊢
      tauto
    · rw [if_neg h] at hq
      simp at hq ⊢
      rcases hq with rfl | hq
      · tauto
      · rcases ih q (by simpa using hq) with h2 | h2
        · simp at h2; tauto
        · tauto

theorem addOffset_fst_of_not_mem (t : List (Nat × List Nat)) (p off : Nat)
    (h : p ∉ t.map Prod.fst) :
    (addOffset t p off).map Prod.fst = t.map Prod.fst ++ [p] := by
  induction t with
  | nil => rfl
  | cons pr rest ih =>
    obtain ⟨r, l⟩ := pr
    simp only [List.map_cons, List.mem_cons] at h
    push_neg at h
    rw [addOffset, if_neg (by tauto)]
    simp only [List.map_cons, List.cons_append]
    rw [ih (by tauto)]

theorem addOffset_fst_of_mem (t : List (Nat × List Nat)) (p off : Nat)
    (h : p ∈ t.map Prod.fst) :
    (addOffset t p off).map Prod.fst = t.map Prod.fst := by
  induction t with
  | nil => simp at h
  | cons pr rest ih =>
    obtain ⟨r, l⟩ := pr
    rw [addOffset]
    by_cases hrp : r = p
    · rw [if_pos hrp]
      simp
    · rw [if_neg hrp]
      simp only [List.map_cons] at h ⊢
      rcases List.mem_cons.mp h with h1 | h1
      · exact absurd h1.symm hrp
      · rw [ih h1]

theorem addOffset_wf (t : List (Nat × List Nat)) (p off : Nat) (hwf : RTWF t)
    (hp4 : p % 4096 = 0) (hp32 : p < 2 ^ 32) (ho : off < 4096) :
    RTWF (addOffset t p off) := by
  induction t with
  | nil =>
    refine ⟨by simp [addOffset], ?_⟩
    intro pr hpr
    simp only [addOffset, List.mem_singleton] at hpr
    subst hpr
    exact ⟨by simp, by simp, by simpa using ho, hp4, hp32⟩
  | cons hd rest ih =>
    obtain ⟨r, l⟩ := hd
    obtain ⟨hnd, hmem⟩ := hwf
    have hrest_wf : RTWF rest := ⟨(List.nodup_cons.mp hnd).2,
      fun pr hpr => hmem pr (List.mem_cons_of_mem _ hpr)⟩
    rw [addOffset]
    by_cases h : r = p
    · rw [if_pos h]
      obtain ⟨hne, hsort, hbound, hr4, hr32⟩ := hmem (r, l) (List.mem_cons_self _ _)
      refine ⟨by simpa using hnd, ?_⟩
      intro pr hpr
      rcases List.mem_cons.mp hpr with rfl | hpr
      · refine ⟨?_, insortNat_sorted off l hsort, ?_, hr4, hr32⟩
        · intro hc
          have hoin : off ∈ insortNat off l := insortNat_mem.mpr (Or.inl rfl)
          have hc2 : insortNat off l = [] := hc
          rw [hc2] at hoin
          simp at hoin
        · intro o hoin
          rcases insortNat_mem.mp hoin with rfl | hoin
          · exact ho
          · exact hbound o hoin
      · exact hmem pr (List.mem_cons_of_mem _ hpr)
    · rw [if_neg h]
      obtain ⟨hwf2a, hwf2b⟩ := ih hrest_wf
      refine ⟨?_, ?_⟩
      · rw [List.map_cons, List.nodup_cons]
        refine ⟨?_, hwf2a⟩
        intro hc
        rcases addOffset_fst_mem rest p off r hc with h2 | h2
        · exact (List.nodup_cons.mp hnd).1 h2
        · exact h h2
      · intro pr hpr
        rcases List.mem_cons.mp hpr with rfl | hpr
        · exact hmem (r, l) (List.mem_cons_self _ _)
        · exact hwf2b pr hpr

theorem iter_addOffset_perm (t : List (Nat × List Nat)) (p off : Nat) :
    (RelocationTable.iter (addOffset t p off)).Perm
      ((p ||| (off &&& 0x0FFF)) :: RelocationTable.iter t) := by
  induction t with
  | nil => exact List.Perm.refl _
  | cons hd rest ih =>
    obtain ⟨r, l⟩ := hd
    rw [addOffset]
    by_cases h : r = p
    · subst h
      rw [if_pos rfl]
      show ((insortNat off l).map _ ++ RelocationTable.iter rest).Perm _
      have hmap : ((insortNat off l).map fun record => r ||| (record &&& 0x0FFF)).Perm
          ((r ||| (off &&& 0x0FFF)) :: l.map fun record => r ||| (record &&& 0x0FFF)) :=
        (insortNat_perm off l).map _
      exact (hmap.append_right _).trans (List.Perm.refl _)
    · rw [if_neg h]
      show (l.map _ ++ RelocationTable.iter (addOffset rest p off)).Perm _
      refine ((ih.append_left _).trans ?_)
      exact List.perm_middle

theorem foldl_addOffset_wf (addrs : List Nat) :
    ∀ t, RTWF t →
      RTWF (addrs.foldl
        (fun t item => addOffset t (item &&& 0xFFFFF000) (item &&& 0x00000FFF)) t) := by
  induction addrs with
  | nil => intro t h; exact h
  | cons a as ih =>
    intro t h
    rw [List.foldl_cons]
    refine ih _ (addOffset_wf _ _ _ h (band_hi_mod a) ?_ ?_)
    · exact lt_of_le_of_lt Nat.and_le_right (by norm_num)
    · rw [band_fff_eq_mod]
      omega

theorem build_wf (addrs : List Nat) : RTWF (RelocationTable.build addrs) :=
  foldl_addOffset_wf addrs [] ⟨by simp, by simp⟩

theorem foldl_addOffset_iter_perm (addrs : List Nat) (h : ∀ a ∈ addrs, a < 2 ^ 32) :
    ∀ t, (RelocationTable.iter (addrs.foldl
        (fun t item => addOffset t (item &&& 0xFFFFF000) (item &&& 0x00000FFF)) t)).Perm
      (RelocationTable.iter t ++ addrs) := by
  induction addrs with
  | nil => intro t; simp
  | cons a as ih =>
    intro t
    rw [List.foldl_cons]
    have ha : a < 2 ^ 32 := h a (List.mem_cons_self _ _)
    have hstep := iter_addOffset_perm t (a &&& 0xFFFFF000) (a &&& 0x00000FFF)
    have hx : (a &&& 0xFFFFF000) ||| ((a &&& 0x00000FFF) &&& 0x0FFF) = a := by
      have hidem : (a &&& 0x00000FFF) &&& 0x0FFF = a &&& 0x00000FFF := by
        rw [band_fff_eq_mod, band_fff_eq_mod (a := a)]
        omega
      rw [hidem]
      exact hi_or_lo a ha
    rw [hx] at hstep
    have h1 := ih (fun x hx => h x (List.mem_cons_of_mem _ hx))
      (addOffset t (a &&& 0xFFFFF000) (a &&& 0x00000FFF))
    refine h1.trans ?_
    refine (hstep.append_right as).trans ?_
    show (a :: (RelocationTable.iter t ++ as)).Perm (RelocationTable.iter t ++ a :: as)
    exact List.perm_middle.symm

theorem iter_build_perm (addrs : List Nat) (h : ∀ a ∈ addrs, a < 2 ^ 32) :
    (RelocationTable.iter (RelocationTable.build addrs)).Perm addrs := by
  have := foldl_addOffset_iter_perm addrs h []
  simpa [RelocationTable.build, RelocationTable.iter] using this

/-- Counterexample to C9 as stated: `__iter__` walks the dict in page
insertion order, not ascending page order, so building from `[0x2000, 0x1000]`
iterates as `[0x2000, 0x1000]` — not page-ascending. -/
theorem c9_counterexample :
    RelocationTable.iter (RelocationTable.build [0x2000, 0x1000]) = [0x2000, 0x1000] ∧
    ¬ List.Sorted (· ≤ ·)
      (RelocationTable.iter (RelocationTable.build [0x2000, 0x1000])) := by
  have he : RelocationTable.iter (RelocationTable.build [0x2000, 0x1000]) =
      [0x2000, 0x1000] := by decide
  refine ⟨he, ?_⟩
  rw [he]
  intro hs
  have := (List.sorted_cons.mp hs).1 0x1000 (by simp)
  omega

/-- C9 (amended): iterating a table built by `build` yields every input
address exactly as often as given (a permutation of the input), grouped by
page in the dict's insertion order with offsets ascending within each page;
the whole sequence is page-then-offset ascending only when the input's pages
first occur in ascending order. -/
theorem c9_iteration (addrs : List Nat) (h : ∀ a ∈ addrs, a < 2 ^ 32) :
    (RelocationTable.iter (RelocationTable.build addrs)).Perm addrs ∧
    ∀ pr ∈ RelocationTable.build addrs, pr.2.Sorted (· ≤ ·) :=
  ⟨iter_build_perm addrs h, fun pr hpr => ((build_wf addrs).2 pr hpr).2.1⟩

/-- Witness for the amended C9 at a concrete address list. -/
theorem c9_iteration_witness :
    (RelocationTable.iter (RelocationTable.build [0x1000, 0x2004, 0x1008])).Perm
      [0x1000, 0x2004, 0x1008] ∧
    ∀ pr ∈ RelocationTable.build [0x1000, 0x2004, 0x1008], pr.2.Sorted (· ≤ ·) :=
  c9_iteration [0x1000, 0x2004, 0x1008] (by decide)

theorem align_two_eq (n : Nat) : RelocationTable.align n 2 = n + n % 2 := by
  rw [RelocationTable.align]
  split
  · omega
  · omega

theorem flatMap_leBytes2_length (l : List Nat) :
    (l.flatMap (leBytes 2)).length = 2 * l.length := by
  induction l with
  | nil => rfl
  | cons x xs ih =>
    rw [List.flatMap_cons]
    simp only [List.length_append, leBytes_length, List.length_cons, ih]
    omega

theorem pageRecords_eq (offs : List Nat) :
    RelocationTable.pageRecords offs =
      if offs.length % 2 = 1 then (offs.map fun item => item ||| (3 <<< 12)) ++ [0]
      else offs.map fun item => item ||| (3 <<< 12) := by
  rw [RelocationTable.pageRecords]
  simp only [List.length_map]
  rw [show (0 <<< 12 ||| 0 : Nat) = 0 by decide]

theorem pageRecords_length (offs : List Nat) :
    (RelocationTable.pageRecords offs).length = RelocationTable.align offs.length 2 := by
  rw [pageRecords_eq, align_two_eq]
  by_cases h : offs.length % 2 = 1
  · rw [if_pos h]
    simp only [List.length_append, List.length_map, List.length_cons, List.length_nil]
    omega
  · rw [if_neg h]
    simp only [List.length_map]
    omega

theorem encodeBlock_length (pr : Nat × List Nat) :
    (RelocationTable.encodeBlock pr).length =
      8 + 2 * RelocationTable.align pr.2.length 2 := by
  rw [RelocationTable.encodeBlock]
  simp only [List.length_append, leBytes_length, flatMap_leBytes2_length, pageRecords_length]

theorem insortPair_perm (x : Nat × List Nat) (l : List (Nat × List Nat)) :
    (RelocationTable.insortPair x l).Perm (x :: l) := by
  induction l with
  | nil => exact List.Perm.refl _
  | cons y ys ih =>
    rw [RelocationTable.insortPair]
    by_cases h : x.1 < y.1
    · rw [if_pos h]
    · rw [if_neg h]
      exact (ih.cons y).trans (List.Perm.swap x y ys)

theorem sortPairs_perm (t : List (Nat × List Nat)) :
    (RelocationTable.sortPairs t).Perm t := by
  induction t with
  | nil => exact List.Perm.refl _
  | cons pr rest ih =>
    rw [RelocationTable.sortPairs, List.foldr_cons]
    exact (insortPair_perm pr _).trans (ih.cons pr)

theorem sum_map_blocklens (t : List (Nat × List Nat)) :
    (t.map fun pr => 8 + 2 * RelocationTable.align pr.2.length 2).sum =
      t.length * 8 + (t.map fun pr => RelocationTable.align pr.2.length 2).sum * 2 := by
  induction t with
  | nil => rfl
  | cons pr rest ih =>
    simp only [List.map_cons, List.sum_cons, List.length_cons, ih]
    ring

theorem to_file_length (t : List (Nat × List Nat)) :
    (RelocationTable.to_file t).length = RelocationTable.size t := by
  rw [RelocationTable.to_file, RelocationTable.size, List.length_flatMap]
  have hperm : ((RelocationTable.sortPairs t).map
      (List.length ∘ RelocationTable.encodeBlock)).Perm
      (t.map (List.length ∘ RelocationTable.encodeBlock)) :=
    (sortPairs_perm t).map _
  rw [hperm.sum_eq]
  have hcong : (t.map (List.length ∘ RelocationTable.encodeBlock)) =
      t.map fun pr => 8 + 2 * RelocationTable.align pr.2.length 2 :=
    List.map_congr_left fun pr _ => encodeBlock_length pr
  rw [hcong]
  exact sum_map_blocklens t

/-- C7: the `size` property equals `8 × page_count + 2 × Σ ceil_to_even(entries
per page)` and is exactly the number of bytes `to_file` writes; every emitted
block is a whole number of DWORDs, an odd entry count being completed by one
`ABSOLUTE` padding record with offset 0. -/
theorem c7_size_and_padding (t : List (Nat × List Nat)) :
    (RelocationTable.to_file t).length = RelocationTable.size t ∧
    (∀ pr ∈ t, 4 ∣ (RelocationTable.encodeBlock pr).length) ∧
    (∀ pr ∈ t, pr.2.length % 2 = 1 →
      RelocationTable.pageRecords pr.2 =
        (pr.2.map fun item => item ||| (3 <<< 12)) ++ [0]) := by
  refine ⟨to_file_length t, ?_, ?_⟩
  · intro pr _
    rw [encodeBlock_length, align_two_eq]
    omega
  · intro pr _ hodd
    rw [pageRecords_eq, if_pos hodd]

/-- Witness for C7 at a concrete one-page table with an odd entry count. -/
theorem c7_size_and_padding_witness :
    (RelocationTable.to_file [(0x1000, [4, 8, 12])]).length =
      RelocationTable.size [(0x1000, [4, 8, 12])] ∧
    (∀ pr ∈ [((0x1000 : Nat), [4, 8, 12])], 4 ∣ (RelocationTable.encodeBlock pr).length) ∧
    (∀ pr ∈ [((0x1000 : Nat), [4, 8, 12])], pr.2.length % 2 = 1 →
      RelocationTable.pageRecords pr.2 =
        (pr.2.map fun item => item ||| (3 <<< 12)) ++ [0]) :=
  c7_size_and_padding [(0x1000, [4, 8, 12])]

theorem iter_read_some_inv (bs : List Nat) (s : Nat) (L : List (Nat × List Nat))
    (hs : ¬ s = 0) (hred : RelocationTable.iter_read bs s = some L) :
    ∃ rest,
      RelocationTable.iter_read
        (((bs.drop 4).drop 4).drop (2 * ((leValue ((bs.drop 4).take 4) - 8) / 2)))
        (s - leValue ((bs.drop 4).take 4)) = some rest ∧
      L = (leValue (bs.take 4),
        (RelocationTable.chunk2
          (((bs.drop 4).drop 4).take (2 * ((leValue ((bs.drop 4).take 4) - 8) / 2)))).filter
            fun x => x >>> 12 = 3) :: rest ∧
      8 < leValue ((bs.drop 4).take 4) := by
  rw [RelocationTable.iter_read, dif_neg hs] at hred
  by_cases hgt : leValue (List.take 4 (List.drop 4 bs)) ≤ 8
  · rw [dif_pos hgt] at hred
    exact absurd hred (by simp)
  · rw [dif_neg hgt] at hred
    by_cases hpar : (leValue (List.take 4 (List.drop 4 bs)) - 8) % 2 ≠ 0
    · rw [if_pos hpar] at hred
      exact absurd hred (by simp)
    · rw [if_neg hpar] at hred
      by_cases hlen2 : (List.drop 4 (List.drop 4 bs)).length <
          2 * ((leValue (List.take 4 (List.drop 4 bs)) - 8) / 2)
      · rw [if_pos hlen2] at hred
        exact absurd hred (by simp)
      · rw [if_neg hlen2] at hred
        cases hrec : RelocationTable.iter_read
            (List.drop (2 * ((leValue (List.take 4 (List.drop 4 bs)) - 8) / 2))
              (List.drop 4 (List.drop 4 bs)))
            (s - leValue (List.take 4 (List.drop 4 bs))) with
        | none =>
          rw [hrec] at hred
          exact absurd hred (by simp)
        | some rest =>
          rw [hrec] at hred
          refine ⟨rest, rfl, ?_, by omega⟩
          simp only [Option.some_inj] at hred
          exact hred.symm

theorem iter_read_kept_highlow (s : Nat) :
    ∀ (bs : List Nat) (L : List (Nat × List Nat)),
      RelocationTable.iter_read bs s = some L →
      ∀ pr ∈ L, ∀ e ∈ pr.2, e >>> 12 = 3 := by
  induction s using Nat.strong_induction_on with
  | _ s ih =>
    intro bs L hred pr hpr e he
    by_cases h0 : s = 0
    · subst h0
      rw [RelocationTable.iter_read, dif_pos rfl] at hred
      simp only [Option.some_inj] at hred
      subst hred
      simp at hpr
    · obtain ⟨rest, hrec, hL, hblock⟩ := iter_read_some_inv bs s L h0 hred
      subst hL
      rcases List.mem_cons.mp hpr with rfl | hpr
      · have := (List.mem_filter.mp he).2
        exact of_decide_eq_true this
      · exact ih (s - leValue ((bs.drop 4).take 4)) (by omega) _ rest hrec pr hpr e he

theorem iter_read_malformed (bs : List Nat) (s : Nat) (hs : 0 < s)
    (hbad : leValue ((bs.drop 4).take 4) ≤ 8 ∨
      (leValue ((bs.drop 4).take 4) - 8) % 2 = 1) :
    RelocationTable.iter_read bs s = none := by
  rw [RelocationTable.iter_read, dif_neg (by omega : ¬ s = 0)]
  by_cases hgt : leValue (List.take 4 (List.drop 4 bs)) ≤ 8
  · rw [dif_pos hgt]
  · rw [dif_neg hgt]
    rcases hbad with h | h
    · exact absurd h hgt
    · rw [if_pos (by omega)]

theorem chunk2_flatMap (l : List Nat) :
    RelocationTable.chunk2 (l.flatMap (leBytes 2)) = l.map (· % 65536) := by
  induction l with
  | nil => rfl
  | cons x xs ih =>
    have hx : leBytes 2 x = [x % 256, x / 256 % 256] := rfl
    rw [List.flatMap_cons, hx]
    show RelocationTable.chunk2 (x % 256 :: x / 256 % 256 :: xs.flatMap (leBytes 2)) = _
    rw [RelocationTable.chunk2, ih]
    have : x % 256 + 256 * (x / 256 % 256) = x % 65536 := by
      have h := Nat.mod_mul (a := 256) (b := 256) (x := x)
      norm_num at h
      omega
    rw [this]
    rfl

theorem take_append_len {l X : List Nat} {n : Nat} (h : l.length = n) :
    (l ++ X).take n = l := by
  subst h
  exact List.take_left l X

theorem drop_append_len {l X : List Nat} {n : Nat} (h : l.length = n) :
    (l ++ X).drop n = X := by
  subst h
  exact List.drop_left l X

theorem map_mod_eq_self (l : List Nat) (h : ∀ x ∈ l, x < 65536) :
    l.map (· % 65536) = l := by
  induction l with
  | nil => rfl
  | cons x xs ih =>
    rw [List.map_cons, Nat.mod_eq_of_lt (h x (List.mem_cons_self _ _)),
      ih fun y hy => h y (List.mem_cons_of_mem _ hy)]

theorem pageRecords_lt (offs : List Nat) (hb : ∀ o ∈ offs, o < 4096) :
    ∀ r ∈ RelocationTable.pageRecords offs, r < 65536 := by
  intro r hr
  rw [pageRecords_eq] at hr
  by_cases h : offs.length % 2 = 1
  · rw [if_pos h] at hr
    rcases List.mem_append.mp hr with hr | hr
    · rcases List.mem_map.mp hr with ⟨o, ho, rfl⟩
      exact tag_lt o (hb o ho)
    · simp only [List.mem_singleton] at hr
      omega
  · rw [if_neg h] at hr
    rcases List.mem_map.mp hr with ⟨o, ho, rfl⟩
    exact tag_lt o (hb o ho)

theorem filter_pageRecords (offs : List Nat) (hb : ∀ o ∈ offs, o < 4096) :
    ((RelocationTable.pageRecords offs).filter fun x => x >>> 12 = 3) =
      offs.map fun o => o ||| 3 <<< 12 := by
  have hself : ((offs.map fun o => o ||| 3 <<< 12).filter fun x => x >>> 12 = 3) =
      offs.map fun o => o ||| 3 <<< 12 := by
    refine List.filter_eq_self.mpr ?_
    intro x hx
    rcases List.mem_map.mp hx with ⟨o, ho, rfl⟩
    exact decide_eq_true (tag_shift o (hb o ho))
  rw [pageRecords_eq]
  by_cases h : offs.length % 2 = 1
  · rw [if_pos h, List.filter_append, hself]
    have h0 : ([0].filter fun x : Nat => x >>> 12 = 3) = [] := by decide
    rw [h0, List.append_nil]
  · rw [if_neg h, hself]

theorem iter_read_block (p : Nat) (offs : List Nat) (rest : List Nat) (s : Nat)
    (hp : p < 2 ^ 32) (hne : offs ≠ []) (hb : ∀ o ∈ offs, o < 4096)
    (hlen : offs.length ≤ 4096) :
    RelocationTable.iter_read (RelocationTable.encodeBlock (p, offs) ++ rest)
      ((RelocationTable.encodeBlock (p, offs)).length + s) =
      (RelocationTable.iter_read rest s).map
        fun l => (p, offs.map fun o => o ||| 3 <<< 12) :: l := by
  have hR1 : 1 ≤ (RelocationTable.pageRecords offs).length := by
    rw [pageRecords_length, align_two_eq]
    have := List.length_pos.mpr hne
    omega
  have hR2 : (RelocationTable.pageRecords offs).length ≤ 4097 := by
    rw [pageRecords_length, align_two_eq]
    omega
  have h232 : (2 : Nat) ^ 32 = 4294967296 := by norm_num
  have h2564 : (256 : Nat) ^ 4 = 4294967296 := by norm_num
  have hblen : (RelocationTable.encodeBlock (p, offs)).length =
      8 + 2 * (RelocationTable.pageRecords offs).length := by
    rw [encodeBlock_length, pageRecords_length]
  have hbytes : RelocationTable.encodeBlock (p, offs) ++ rest =
      leBytes 4 p ++
        (leBytes 4 (8 + 2 * (RelocationTable.pageRecords offs).length) ++
          ((RelocationTable.pageRecords offs).flatMap (leBytes 2) ++ rest)) := by
    rw [RelocationTable.encodeBlock]
    simp [List.append_assoc]
  have hpv : leValue (leBytes 4 p) = p := by
    rw [leValue_leBytes]
    omega
  have hBv : leValue (leBytes 4 (8 + 2 * (RelocationTable.pageRecords offs).length)) =
      8 + 2 * (RelocationTable.pageRecords offs).length := by
    rw [leValue_leBytes]
    omega
  have htk1 : ∀ X : List Nat, (leBytes 4 p ++ X).take 4 = leBytes 4 p :=
    fun X => take_append_len (leBytes_length 4 p)
  have hdp1 : ∀ X : List Nat, (leBytes 4 p ++ X).drop 4 = X :=
    fun X => drop_append_len (leBytes_length 4 p)
  have htk2 : ∀ X : List Nat,
      (leBytes 4 (8 + 2 * (RelocationTable.pageRecords offs).length) ++ X).take 4 =
        leBytes 4 (8 + 2 * (RelocationTable.pageRecords offs).length) :=
    fun X => take_append_len (leBytes_length 4 _)
  have hdp2 : ∀ X : List Nat,
      (leBytes 4 (8 + 2 * (RelocationTable.pageRecords offs).length) ++ X).drop 4 = X :=
    fun X => drop_append_len (leBytes_length 4 _)
  rw [hbytes, RelocationTable.iter_read, dif_neg (by omega : ¬ _ + s = 0)]
  simp only [htk1, hdp1, htk2, hdp2, hpv, hBv]
  rw [dif_neg (by omega : ¬ 8 + 2 * (RelocationTable.pageRecords offs).length ≤ 8)]
  rw [if_neg (by omega :
    ¬ (8 + 2 * (RelocationTable.pageRecords offs).length - 8) % 2 ≠ 0)]
  have hk : (8 + 2 * (RelocationTable.pageRecords offs).length - 8) / 2 =
      (RelocationTable.pageRecords offs).length := by omega
  rw [hk]
  have hbodylen : ((RelocationTable.pageRecords offs).flatMap (leBytes 2)).length =
      2 * (RelocationTable.pageRecords offs).length := flatMap_leBytes2_length _
  rw [if_neg (by
    rw [List.length_append, hbodylen]
    omega)]
  rw [take_append_len hbodylen, drop_append_len hbodylen]
  rw [chunk2_flatMap, map_mod_eq_self _ (pageRecords_lt offs hb), filter_pageRecords offs hb]
  have harg : (RelocationTable.encodeBlock (p, offs)).length + s -
      (8 + 2 * (RelocationTable.pageRecords offs).length) = s := by
    rw [hblen]
    omega
  rw [harg]
  cases hfin : RelocationTable.iter_read rest s with
  | none => rfl
  | some r => rfl

theorem iter_read_stream (L : List (Nat × List Nat))
    (h : ∀ pr ∈ L, pr.1 < 2 ^ 32 ∧ pr.2 ≠ [] ∧ (∀ o ∈ pr.2, o < 4096) ∧
      pr.2.length ≤ 4096) :
    RelocationTable.iter_read (L.flatMap RelocationTable.encodeBlock)
      ((L.map fun pr => (RelocationTable.encodeBlock pr).length).sum) =
      some (L.map fun pr => (pr.1, pr.2.map fun o => o ||| 3 <<< 12)) := by
  induction L with
  | nil =>
    rw [List.flatMap_nil, List.map_nil, List.sum_nil, RelocationTable.iter_read, dif_pos rfl]
    rfl
  | cons pr rest ih =>
    obtain ⟨p, offs⟩ := pr
    obtain ⟨hp, hne, hb, hlen⟩ := h (p, offs) (List.mem_cons_self _ _)
    rw [List.flatMap_cons, List.map_cons, List.sum_cons,
      iter_read_block p offs _ _ hp hne hb hlen,
      ih fun pr hpr => h pr (List.mem_cons_of_mem _ hpr)]
    rfl

theorem dictInsert_append (acc : List (Nat × List Nat)) (kv : Nat × List Nat)
    (h : kv.1 ∉ acc.map Prod.fst) :
    RelocationTable.dictInsert acc kv = acc ++ [kv] := by
  induction acc with
  | nil => rfl
  | cons pr rest ih =>
    obtain ⟨q, l⟩ := pr
    simp only [List.map_cons, List.mem_cons] at h
    push_neg at h
    rw [RelocationTable.dictInsert, if_neg (by tauto)]
    rw [List.cons_append, ih (by tauto)]

theorem foldl_dictInsert_eq (L : List (Nat × List Nat)) :
    ∀ acc, ((acc ++ L).map Prod.fst).Nodup →
      L.foldl RelocationTable.dictInsert acc = acc ++ L := by
  induction L with
  | nil => intro acc _; rw [List.foldl_nil, List.append_nil]
  | cons kv L ih =>
    intro acc hnd
    have hsplit : acc ++ kv :: L = (acc ++ [kv]) ++ L := by
      rw [List.append_assoc]
      rfl
    have hnotin : kv.1 ∉ acc.map Prod.fst := by
      rw [List.map_append, List.nodup_append] at hnd
      intro hc
      exact hnd.2.2 hc (by simp)
    rw [List.foldl_cons, dictInsert_append acc kv hnotin, ih (acc ++ [kv]) (by
      rw [← hsplit]
      exact hnd), hsplit]

theorem dictOfPairs_eq_self (L : List (Nat × List Nat))
    (hk : (L.map Prod.fst).Nodup) :
    RelocationTable.dictOfPairs L = L := by
  rw [RelocationTable.dictOfPairs]
  exact foldl_dictInsert_eq L [] (by simpa using hk)

theorem iter_cons (q : Nat × List Nat) (M : List (Nat × List Nat)) :
    RelocationTable.iter (q :: M) =
      (q.2.map fun record => q.1 ||| (record &&& 0x0FFF)) ++ RelocationTable.iter M := rfl

theorem iter_tagged (L : List (Nat × List Nat))
    (hb : ∀ pr ∈ L, ∀ o ∈ pr.2, o < 4096) :
    RelocationTable.iter (L.map fun pr => (pr.1, pr.2.map fun o => o ||| 3 <<< 12)) =
      RelocationTable.iter L := by
  induction L with
  | nil => rfl
  | cons pr rest ih =>
    obtain ⟨p, offs⟩ := pr
    have hbp := hb (p, offs) (List.mem_cons_self _ _)
    rw [List.map_cons, iter_cons, iter_cons,
      ih fun pr hpr => hb pr (List.mem_cons_of_mem _ hpr)]
    congr 1
    show ((offs.map fun o => o ||| 3 <<< 12).map fun record => p ||| (record &&& 0x0FFF)) =
      offs.map fun record => p ||| (record &&& 0x0FFF)
    rw [List.map_map]
    refine List.map_congr_left ?_
    intro o ho
    show p ||| ((o ||| 3 <<< 12) &&& 0x0FFF) = p ||| (o &&& 0x0FFF)
    rw [tag_mask o (hbp o ho), band_fff_eq_mod, Nat.mod_eq_of_lt (hbp o ho)]

theorem iter_nodup_components (L : List (Nat × List Nat))
    (h : (RelocationTable.iter L).Nodup) :
    ∀ pr ∈ L, pr.2.Nodup := by
  induction L with
  | nil => simp
  | cons pr rest ih =>
    intro pr2 hpr2
    have hsplit : RelocationTable.iter (pr :: rest) =
        (pr.2.map fun record => pr.1 ||| (record &&& 0x0FFF)) ++
          RelocationTable.iter rest := rfl
    rw [hsplit, List.nodup_append] at h
    rcases List.mem_cons.mp hpr2 with rfl | hpr2
    · exact h.1.of_map
    · exact ih h.2.1 pr2 hpr2

theorem nodup_length_le_4096 (offs : List Nat) (hn : offs.Nodup)
    (hb : ∀ o ∈ offs, o < 4096) : offs.length ≤ 4096 := by
  have hcard : offs.toFinset.card = offs.length := List.toFinset_card_of_nodup hn
  have hsub : offs.toFinset ⊆ Finset.range 4096 := by
    intro o ho
    rw [List.mem_toFinset] at ho
    rw [Finset.mem_range]
    exact hb o ho
  have := Finset.card_le_card hsub
  rw [hcard, Finset.card_range] at this
  exact this

/-- C2: building a relocation table from a duplicate-free list of 32-bit
addresses, serializing it with `to_file` and decoding the produced bytes with
`from_file` yields a table that iterates to exactly the original address
set. -/
theorem c2_relocation_roundtrip (addrs : List Nat) (hnd : addrs.Nodup)
    (h32 : ∀ a ∈ addrs, a < 2 ^ 32) :
    ∃ t, RelocationTable.from_file
        (RelocationTable.to_file (RelocationTable.build addrs))
        (RelocationTable.to_file (RelocationTable.build addrs)).length = some t ∧
      (RelocationTable.iter t).toFinset = addrs.toFinset := by
  have hwf := build_wf addrs
  have hperm := iter_build_perm addrs h32
  have hnd_iter : (RelocationTable.iter (RelocationTable.build addrs)).Nodup :=
    hperm.nodup_iff.mpr hnd
  have hpage_nodup := iter_nodup_components _ hnd_iter
  have hsperm := sortPairs_perm (RelocationTable.build addrs)
  have hmem_of : ∀ pr ∈ RelocationTable.sortPairs (RelocationTable.build addrs),
      pr ∈ RelocationTable.build addrs := fun pr hpr => hsperm.mem_iff.mp hpr
  have hprops : ∀ pr ∈ RelocationTable.sortPairs (RelocationTable.build addrs),
      pr.1 < 2 ^ 32 ∧ pr.2 ≠ [] ∧ (∀ o ∈ pr.2, o < 4096) ∧ pr.2.length ≤ 4096 := by
    intro pr hpr
    have hT := hmem_of pr hpr
    obtain ⟨hne, hsort, hb, hp4, hp32⟩ := hwf.2 pr hT
    exact ⟨hp32, hne, hb, nodup_length_le_4096 _ (hpage_nodup pr hT) hb⟩
  have hlen_eq : (RelocationTable.to_file (RelocationTable.build addrs)).length =
      ((RelocationTable.sortPairs (RelocationTable.build addrs)).map
        fun pr => (RelocationTable.encodeBlock pr).length).sum := by
    rw [RelocationTable.to_file, List.length_flatMap]
    rfl
  have hparse := iter_read_stream _ hprops
  have hkeys : (((RelocationTable.sortPairs (RelocationTable.build addrs)).map
      fun pr => (pr.1, pr.2.map fun o => o ||| 3 <<< 12)).map Prod.fst).Nodup := by
    rw [List.map_map]
    have heq : (Prod.fst ∘ fun pr : Nat × List Nat =>
        (pr.1, pr.2.map fun o => o ||| 3 <<< 12)) = Prod.fst := rfl
    rw [heq]
    exact (hsperm.map Prod.fst).nodup_iff.mpr hwf.1
  refine ⟨(RelocationTable.sortPairs (RelocationTable.build addrs)).map
    fun pr => (pr.1, pr.2.map fun o => o ||| 3 <<< 12), ?_, ?_⟩
  · rw [RelocationTable.from_file, hlen_eq, RelocationTable.to_file, hparse]
    show some (RelocationTable.dictOfPairs _) = _
    rw [dictOfPairs_eq_self _ hkeys]
  · rw [iter_tagged _ fun pr hpr => (hprops pr hpr).2.2.1]
    have hflat : (RelocationTable.iter
        (RelocationTable.sortPairs (RelocationTable.build addrs))).Perm
        (RelocationTable.iter (RelocationTable.build addrs)) := hsperm.flatMap_right _
    exact List.toFinset_eq_of_perm _ _ (hflat.trans hperm)

/-- Witness for C2 at a concrete address set. -/
theorem c2_relocation_roundtrip_witness :
    ∃ t, RelocationTable.from_file
        (RelocationTable.to_file (RelocationTable.build [0x2008, 0x1000, 0x1004]))
        (RelocationTable.to_file (RelocationTable.build [0x2008, 0x1000, 0x1004])).length =
          some t ∧
      (RelocationTable.iter t).toFinset = ([0x2008, 0x1000, 0x1004] : List Nat).toFinset :=
  c2_relocation_roundtrip [0x2008, 0x1000, 0x1004] (by decide) (by decide)

/-- C8: a relocation block whose `block_size` is at most 8 or whose
`block_size - 8` is odd makes decoding fail for the whole stream (`none`,
modelling the assertion failure — nothing is silently truncated or partially
consumed), and any successfully decoded table keeps exactly the entries whose
type nibble is HIGHLOW(3) — in particular every ABSOLUTE(0) entry is
discarded. -/
theorem c8_malformed_and_filter :
    (∀ (bs : List Nat) (s : Nat), 0 < s →
      (leValue ((bs.drop 4).take 4) ≤ 8 ∨ (leValue ((bs.drop 4).take 4) - 8) % 2 = 1) →
      RelocationTable.iter_read bs s = none ∧ RelocationTable.from_file bs s = none) ∧
    (∀ (bs : List Nat) (s : Nat) (L : List (Nat × List Nat)),
      RelocationTable.iter_read bs s = some L →
      ∀ pr ∈ L, ∀ e ∈ pr.2, e >>> 12 = 3) := by
  constructor
  · intro bs s hs hbad
    have h := iter_read_malformed bs s hs hbad
    refine ⟨h, ?_⟩
    rw [RelocationTable.from_file, h]
    rfl
  · intro bs s L h
    exact iter_read_kept_highlow s bs L h

/-- Witness for C8: a `block_size = 8` stream is rejected whole, and a
decoded one-page table holds only HIGHLOW-tagged entries. -/
theorem c8_malformed_and_filter_witness :
    (RelocationTable.iter_read [0, 16, 0, 0, 8, 0, 0, 0] 8 = none ∧
      RelocationTable.from_file [0, 16, 0, 0, 8, 0, 0, 0] 8 = none) ∧
    (∀ pr ∈ [((0x1000 : Nat), [(4 : Nat) ||| 3 <<< 12])], ∀ e ∈ pr.2, e >>> 12 = 3) :=
  ⟨c8_malformed_and_filter.1 [0, 16, 0, 0, 8, 0, 0, 0] 8 (by norm_num) (by left; decide),
   c8_malformed_and_filter.2
     ([((0x1000 : Nat), [(4 : Nat)])].flatMap RelocationTable.encodeBlock)
     (([((0x1000 : Nat), [(4 : Nat)])].map
       fun pr => (RelocationTable.encodeBlock pr).length).sum)
     _
     (iter_read_stream [((0x1000 : Nat), [(4 : Nat)])] (by decide))⟩

